import Mathlib

/-!
Shallow embedding of the move-legality and board-state engine of the
Panda3D chessboard demo (src/chessboard/main.py).

Python integer arithmetic conventions are preserved: `%` and `//` are
floor modulus and floor division, embedded as `Int.fmod` and `Int.fdiv`.
The two float comparisons `a/b == c/d` in `isVaidMove` are embedded as
exact rational equality `a*d = c*b` guarded by the divisor checks (a
`ZeroDivisionError` is modelled as `none`); for every operand quadruple
reachable in this program the magnitudes are at most 8, where correctly
rounded binary64 division decides rational equality exactly, so the
embedding agrees with CPython.

Exceptions and non-termination are modelled with `Option`: a `none`
result stands for a raised exception (attribute access on `None`,
division by zero) or a diverging scan loop; the scan loop of
`isPieceBetween` carries fuel 64, which is exact for every nonzero step,
so `none` from fuel exhaustion occurs only on a zero step vector, where
the Python loop indeed diverges.

The board (`self.pieces`, a Python list of length 64 holding `None` or a
piece object) is embedded as a total function `Int → Option Piece`; only
indices in `[0, 64)` are ever consulted on exception-free paths.
-/

namespace ChessDemo

/-- Piece classes of the source: Pawn, Knight, Bishop, Rook, Queen, King. -/
inductive PieceKind where
  | pawn
  | knight
  | bishop
  | rook
  | queen
  | king
deriving DecidableEq, Fintype

/-- A piece object: class, `white` flag (set from the constructor color),
`square`, the per-instance `moves` list (class attribute, but patched on
black pawn instances), the class `limit` flag, and `is_first_move`. -/
structure Piece where
  kind : PieceKind
  white : Bool
  square : Int
  moves : List (Int × Int)
  limit : Bool
  is_first_move : Bool
deriving DecidableEq

/-- Move table of class `Pawn`. -/
def pawnMoves : List (Int × Int) := [(0, 1), (1, 1), (-1, 1)]

/-- Moves patched onto black pawn instances in `ChessboardDemo.__init__`. -/
def blackPawnMoves : List (Int × Int) := [(0, -1), (1, -1), (-1, -1)]

/-- Move table of class `King`. -/
def kingMoves : List (Int × Int) :=
  [(1, 0), (0, 1), (-1, 0), (0, -1), (1, 1), (-1, 1), (1, -1), (-1, -1)]

/-- Move table of class `Queen`. -/
def queenMoves : List (Int × Int) :=
  [(1, 0), (0, 1), (-1, 0), (0, -1), (1, 1), (-1, 1), (1, -1), (-1, -1)]

/-- Move table of class `Bishop`. -/
def bishopMoves : List (Int × Int) := [(1, 1), (-1, 1), (1, -1), (-1, -1)]

/-- Move table of class `Knight`. -/
def knightMoves : List (Int × Int) :=
  [(-1, 2), (-2, 1), (-2, -1), (-1, -2), (1, -2), (2, -1), (2, 1), (1, 2)]

/-- Move table of class `Rook`. -/
def rookMoves : List (Int × Int) := [(1, 0), (0, 1), (-1, 0), (0, -1)]

/-- Per-class `moves` attribute as the pieces actually carry it in the
running program: black pawns get the patched list, every other class its
class attribute. -/
def pieceMoves : PieceKind → Bool → List (Int × Int)
  | .pawn, true => pawnMoves
  | .pawn, false => blackPawnMoves
  | .knight, _ => knightMoves
  | .bishop, _ => bishopMoves
  | .rook, _ => rookMoves
  | .queen, _ => queenMoves
  | .king, _ => kingMoves

/-- Per-class `limit` attribute. -/
def pieceLimit : PieceKind → Bool
  | .pawn => true
  | .knight => true
  | .king => true
  | .bishop => false
  | .rook => false
  | .queen => false

/-- A piece as constructed by the program: `is_first_move` is initialized
to `False` in `Piece.__init__`. -/
def mkBoardPiece (k : PieceKind) (sq : Int) (w : Bool) : Piece :=
  ⟨k, w, sq, pieceMoves k w, pieceLimit k, false⟩

/-- Every vector appearing in some class table (the black pawn patch
vectors all also occur in the king and queen tables). -/
def allClassVectors : List (Int × Int) :=
  pawnMoves ++ blackPawnMoves ++ kingMoves ++ queenMoves ++ bishopMoves ++
    knightMoves ++ rookMoves

/-- Write one slot of the board list. -/
def updSlot (pieces : Int → Option Piece) (i : Int) (v : Option Piece) :
    Int → Option Piece :=
  fun j => if j = i then v else pieces j

/-- Assignment `piece.square = s`. -/
def setSquare (p : Piece) (s : Int) : Piece := { p with square := s }

/-- Board holding a single piece at square `s` and nothing elsewhere. -/
def singleBoard (s : Int) (p : Piece) : Int → Option Piece :=
  fun i => if i = s then some p else none

/-- Embedding of the Python float comparison `a / b == c / d` on
integers: `none` models the `ZeroDivisionError` raised when `b` or `d`
is zero, and otherwise the comparison is exact rational equality, which
for the operand magnitudes reachable in this program coincides with the
correctly rounded binary64 comparison CPython performs. -/
def divEq (a b c d : Int) : Option Bool :=
  if b = 0 then none
  else if d = 0 then none
  else some (decide (a * d = c * b))

/-- One iteration body of the `for move in piece.moves` scan of
`isVaidMove`, restricted to the part that may set `valid_move` to
`True`: given the piece `limit` flag, the displacement
`(xD, yD) = (xDistance, yDistance)` and a table vector `(dx, dy)`,
decide whether this vector sets `valid_move`.  Mirrors the
`if/elif` chain at lines 220-235 of the source, with Python `%` and `//`
as `Int.fmod` and `Int.fdiv`. -/
def matchVector (limit : Bool) (xD yD dx dy : Int) : Option Bool :=
  if xD = dx then
    if yD = dy then some true
    else if limit = false ∧ dy ≠ 0 ∧ yD ≠ 0 then
      if Int.fmod yD dy = 0 ∧ 0 < Int.fdiv yD dy then divEq xD yD dx dy
      else some false
    else some false
  else if limit = false ∧ dx ≠ 0 then
    if Int.fmod xD dx = 0 ∧ 0 < Int.fdiv xD dx then
      if yD = dy then divEq yD xD dy dx
      else if dy ≠ 0 ∧ yD ≠ 0 then
        if Int.fmod yD dy = 0 ∧ 0 < Int.fdiv yD dy then divEq xD yD dx dy
        else some false
      else some false
    else some false
  else some false

/-- Fueled embedding of the `while` loop of `isPieceBetween`: `cur` is
the running index, `flag` the `piece_NOT_between` accumulator.  The stop
condition is the negation of `cur != target and cur > -1 and cur < 64`.
At fuel 0 a still-running loop yields `none`; fuel 64 is exact for every
nonzero step, so `none` occurs only where the Python loop diverges. -/
def betweenLoop (pieces : Int → Option Piece) (step target : Int) :
    Nat → Int → Bool → Option Bool
  | 0, cur, flag =>
      if cur = target ∨ cur ≤ -1 ∨ 64 ≤ cur then some flag else none
  | fuel + 1, cur, flag =>
      if cur = target ∨ cur ≤ -1 ∨ 64 ≤ cur then some flag
      else betweenLoop pieces step target fuel (cur + step)
        (flag && (pieces cur).isNone)

/-- Embedding of `ChessboardDemo.isPieceBetween`: walk from
`currentPos + (dx + dy*8)` in steps of `dx + dy*8` toward `targetPos`,
recording whether every visited square is empty. -/
def isPieceBetween (pieces : Int → Option Piece) (m : Int × Int)
    (currentPos targetPos : Int) : Option Bool :=
  betweenLoop pieces (m.1 + m.2 * 8) targetPos 64
    (currentPos + (m.1 + m.2 * 8)) true

/-- Embedding of the `for move in piece.moves` loop of `isVaidMove`,
with `vm` the `valid_move` accumulator.  After any vector has set
`valid_move`, the source evaluates
`self.pieces[currentPos].limit == False` (a `None` occupant raises,
modelled by `none`); if the occupant is ranged it overwrites
`valid_move` with the obstruction scan for the current vector and
breaks, otherwise the loop continues. -/
def moveLoop (pieces : Int → Option Piece) (piece : Piece)
    (currentPos targetPos xD yD : Int) :
    List (Int × Int) → Bool → Option Bool
  | [], vm => some vm
  | m :: rest, vm =>
      match matchVector piece.limit xD yD m.1 m.2 with
      | none => none
      | some b =>
          let vm' := vm || b
          if vm' then
            match pieces currentPos with
            | none => none
            | some occ =>
                if occ.limit = false then
                  isPieceBetween pieces m currentPos targetPos
                else moveLoop pieces piece currentPos targetPos xD yD rest vm'
          else moveLoop pieces piece currentPos targetPos xD yD rest vm'

/-- Embedding of `ChessboardDemo.isVaidMove`: decode both squares with
floor `%`/`//` by 8, run the vector loop, then apply the same-color
occupancy rule on `targetPos`. -/
def isVaidMove (pieces : Int → Option Piece) (piece : Piece)
    (currentPos targetPos : Int) : Option Bool :=
  Option.map
    (fun vm =>
      match pieces targetPos with
      | some tp => if tp.white = piece.white then false else vm
      | none => vm)
    (moveLoop pieces piece currentPos targetPos
      (Int.fmod targetPos 8 - Int.fmod currentPos 8)
      (Int.fdiv targetPos 8 - Int.fdiv currentPos 8)
      piece.moves false)

/-- Update `pieces[to].square = to` (with the presentation reposition),
the tail of `swapPieces`. -/
def updateToSquare (b : Int → Option Piece) (toSq : Int) : Int → Option Piece :=
  match b toSq with
  | some q => updSlot b toSq (some (setSquare q toSq))
  | none => b

/-- Embedding of `ChessboardDemo.swapPieces`: swap the two slots, then
if the slot `fr` now holds a piece and `fr != to`, report game over when
that piece is a `King` and clear the slot; finally update the `square`
attribute of the piece now at `to`.  The `Bool` component records
whether the `Game over!` text was produced on this call. -/
def swapPieces (pieces : Int → Option Piece) (fr toSq : Int) :
    (Int → Option Piece) × Bool :=
  let b1 := updSlot (updSlot pieces fr (pieces toSq)) toSq (pieces fr)
  match b1 fr with
  | some p =>
      if fr ≠ toSq then
        (updateToSquare (updSlot b1 fr none) toSq,
          decide (p.kind = PieceKind.king))
      else (updateToSquare b1 toSq, false)
  | none => (updateToSquare b1 toSq, false)

/-- Interaction state of `ChessboardDemo`: the board list, the
highlighted square `hiSq` (`False` embedded as `none`) and the drag
origin `dragging` (`False` embedded as `none`). -/
structure DemoState where
  pieces : Int → Option Piece
  hiSq : Option Int
  dragging : Option Int

/-- Embedding of `ChessboardDemo.releasePiece`.  A raised exception
(empty drag-origin slot, or an exception inside `isVaidMove`) is
`none`; note that in that case the source never reaches the trailing
`self.dragging = False`.  On the legal path the source first executes
`self.pieces[self.dragging].is_first_move = False` and then swaps. -/
def releasePiece (st : DemoState) : Option DemoState :=
  match st.dragging with
  | none => some { st with dragging := none }
  | some s =>
      match st.pieces s with
      | none => none
      | some p =>
          match st.hiSq with
          | none => some { st with dragging := none }
          | some t =>
              match isVaidMove st.pieces p s t with
              | none => none
              | some false => some { st with dragging := none }
              | some true =>
                  some { st with
                    pieces :=
                      (swapPieces
                        (updSlot st.pieces s
                          (some { p with is_first_move := false })) s t).1,
                    dragging := none }

/-- Modelled from the spec (refinement target of the vector-matching
phase): the displacement equals the vector exactly, or the piece is
ranged and the displacement is a positive-integer scalar multiple of
the vector. -/
def scalarMultipleRule (limit : Bool) (xD yD dx dy : Int) : Prop :=
  (xD = dx ∧ yD = dy) ∨
    (limit = false ∧ ∃ k : Int, 0 < k ∧ xD = k * dx ∧ yD = k * dy)

/-- One-step diagonal pawn vectors per side. -/
def pawnDiagonals : Bool → List (Int × Int)
  | true => [(1, 1), (-1, 1)]
  | false => [(1, -1), (-1, -1)]

/-- Python `a % b == 0 and a // b > 0` (floor semantics) says exactly
that `a` is a positive multiple of `b`. -/
theorem fmod_fdiv_pos_iff (a b : Int) (hb : b ≠ 0) :
    Int.fmod a b = 0 ∧ 0 < Int.fdiv a b ↔ ∃ q : Int, 0 < q ∧ a = q * b := by
  constructor
  · rintro ⟨h1, h2⟩
    refine ⟨Int.fdiv a b, h2, ?_⟩
    have h3 := Int.fdiv_add_fmod a b
    rw [h1, add_zero] at h3
    rw [mul_comm]; exact h3.symm
  · rintro ⟨q, hq, rfl⟩
    exact ⟨Int.mul_fmod_left q b, by rw [Int.mul_fdiv_cancel q hb]; exact hq⟩

/-- With nonzero divisors, `divEq` is the rational equality test. -/
theorem divEq_eq_some (a b c d : Int) (hb : b ≠ 0) (hd : d ≠ 0) :
    divEq a b c d = some (decide (a * d = c * b)) := by
  simp [divEq, hb, hd]

/-- Claim C1 core, one vector: the `valid_move` condition of the source
for a single table vector holds exactly when the displacement is the
vector itself or (ranged) a positive scalar multiple of it. -/
theorem matchVector_eq_true_iff (limit : Bool) (xD yD dx dy : Int) :
    matchVector limit xD yD dx dy = some true ↔
      scalarMultipleRule limit xD yD dx dy := by
  constructor
  · intro h
    unfold matchVector at h
    by_cases h1 : xD = dx
    · rw [if_pos h1] at h
      by_cases h2 : yD = dy
      · exact Or.inl ⟨h1, h2⟩
      · rw [if_neg h2] at h
        by_cases h3 : limit = false ∧ dy ≠ 0 ∧ yD ≠ 0
        · rw [if_pos h3] at h
          by_cases h4 : Int.fmod yD dy = 0 ∧ 0 < Int.fdiv yD dy
          · rw [if_pos h4, divEq_eq_some _ _ _ _ h3.2.2 h3.2.1] at h
            have hratio : xD * dy = dx * yD :=
              of_decide_eq_true (Option.some.inj h)
            obtain ⟨q, hq, hyd⟩ := (fmod_fdiv_pos_iff yD dy h3.2.1).mp h4
            refine Or.inr ⟨h3.1, q, hq, ?_, hyd⟩
            by_cases hdx : dx = 0
            · rw [h1, hdx, mul_zero]
            · exfalso
              rw [h1, hyd] at hratio
              have hc : dy = q * dy := mul_left_cancel₀ hdx hratio
              have hone : (1 : Int) * dy = q * dy := by rw [one_mul]; exact hc
              have hq1 : (1 : Int) = q := mul_right_cancel₀ h3.2.1 hone
              exact h2 (by rw [hyd, ← hq1, one_mul])
          · rw [if_neg h4] at h; simp at h
        · rw [if_neg h3] at h; simp at h
    · rw [if_neg h1] at h
      by_cases h5 : limit = false ∧ dx ≠ 0
      · rw [if_pos h5] at h
        by_cases h6 : Int.fmod xD dx = 0 ∧ 0 < Int.fdiv xD dx
        · rw [if_pos h6] at h
          obtain ⟨q1, hq1, hxq⟩ := (fmod_fdiv_pos_iff xD dx h5.2).mp h6
          have hxD0 : xD ≠ 0 := by
            rw [hxq]; exact mul_ne_zero (by omega) h5.2
          by_cases h7 : yD = dy
          · rw [if_pos h7, divEq_eq_some _ _ _ _ hxD0 h5.2] at h
            have hr : yD * dx = dy * xD :=
              of_decide_eq_true (Option.some.inj h)
            rw [hxq, ← mul_assoc] at hr
            have hyq : yD = dy * q1 := mul_right_cancel₀ h5.2 hr
            by_cases hdy : dy = 0
            · exact Or.inr ⟨h5.1, q1, hq1, hxq, by rw [hyq, hdy]; ring⟩
            · exfalso
              rw [h7] at hyq
              have hone : dy * 1 = dy * q1 := by rw [mul_one]; exact hyq
              have : (1 : Int) = q1 := mul_left_cancel₀ hdy hone
              exact h1 (by rw [hxq, ← this, one_mul])
          · rw [if_neg h7] at h
            by_cases h8 : dy ≠ 0 ∧ yD ≠ 0
            · rw [if_pos h8] at h
              by_cases h9 : Int.fmod yD dy = 0 ∧ 0 < Int.fdiv yD dy
              · rw [if_pos h9, divEq_eq_some _ _ _ _ h8.2 h8.1] at h
                have hr : xD * dy = dx * yD :=
                  of_decide_eq_true (Option.some.inj h)
                obtain ⟨q2, hq2, hyq⟩ := (fmod_fdiv_pos_iff yD dy h8.1).mp h9
                rw [hxq, hyq] at hr
                have hr2 : (dx * dy) * q1 = (dx * dy) * q2 := by
                  linear_combination hr
                have hqq : q1 = q2 :=
                  mul_left_cancel₀ (mul_ne_zero h5.2 h8.1) hr2
                exact Or.inr ⟨h5.1, q1, hq1, hxq, by rw [hyq, hqq]⟩
              · rw [if_neg h9] at h; simp at h
            · rw [if_neg h8] at h; simp at h
        · rw [if_neg h6] at h; simp at h
      · rw [if_neg h5] at h; simp at h
  · rintro (⟨h1, h2⟩ | ⟨hlim, k, hk, hx, hy⟩)
    · unfold matchVector
      rw [if_pos h1, if_pos h2]
    · by_cases hk1 : k = 1
      · subst hk1
        rw [one_mul] at hx hy
        unfold matchVector
        rw [if_pos hx, if_pos hy]
      · have hk2 : 2 ≤ k := by omega
        by_cases hdx : dx = 0
        · have hxD : xD = dx := by rw [hx, hdx]; ring
          by_cases h2 : yD = dy
          · unfold matchVector
            rw [if_pos hxD, if_pos h2]
          · have hdy0 : dy ≠ 0 := by
              intro h0; apply h2; rw [hy, h0]; ring
            have hyD0 : yD ≠ 0 := by
              rw [hy]; exact mul_ne_zero (by omega) hdy0
            unfold matchVector
            rw [if_pos hxD, if_neg h2, if_pos ⟨hlim, hdy0, hyD0⟩,
              if_pos ((fmod_fdiv_pos_iff yD dy hdy0).mpr ⟨k, hk, hy⟩),
              divEq_eq_some _ _ _ _ hyD0 hdy0]
            simp only [Option.some.injEq, decide_eq_true_eq]
            rw [hx, hdx]; ring
        · have h1 : xD ≠ dx := by
            rw [hx]; intro he
            have hz : (k - 1) * dx = 0 := by
              rw [sub_mul, one_mul, he, sub_self]
            rcases mul_eq_zero.mp hz with h | h
            · omega
            · exact hdx h
          have hxD0 : xD ≠ 0 := by
            rw [hx]; exact mul_ne_zero (by omega) hdx
          unfold matchVector
          rw [if_neg h1, if_pos ⟨hlim, hdx⟩,
            if_pos ((fmod_fdiv_pos_iff xD dx hdx).mpr ⟨k, hk, hx⟩)]
          by_cases h2 : yD = dy
          · have hdy0 : dy = 0 := by
              rw [hy] at h2
              have hz : (k - 1) * dy = 0 := by
                rw [sub_mul, one_mul, h2, sub_self]
              rcases mul_eq_zero.mp hz with h | h
              · omega
              · exact h
            rw [if_pos h2, divEq_eq_some _ _ _ _ hxD0 hdx]
            simp only [Option.some.injEq, decide_eq_true_eq]
            rw [h2, hdy0]; ring
          · have hdy0 : dy ≠ 0 := by
              intro h0; apply h2; rw [hy, h0]; ring
            have hyD0 : yD ≠ 0 := by
              rw [hy]; exact mul_ne_zero (by omega) hdy0
            rw [if_neg h2, if_pos ⟨hdy0, hyD0⟩,
              if_pos ((fmod_fdiv_pos_iff yD dy hdy0).mpr ⟨k, hk, hy⟩),
              divEq_eq_some _ _ _ _ hyD0 hdy0]
            simp only [Option.some.injEq, decide_eq_true_eq]
            rw [hx, hy]; ring

/-- The vector-match test never raises: every division the source
performs in it has a nonzero denominator on its evaluation path (for the
`yD/xD` comparison, `xD ≠ 0` follows from `xD // dx > 0` with
`xD % dx == 0`). -/
theorem matchVector_isSome (limit : Bool) (xD yD dx dy : Int) :
    (matchVector limit xD yD dx dy).isSome = true := by
  unfold matchVector
  by_cases h1 : xD = dx
  · rw [if_pos h1]
    by_cases h2 : yD = dy
    · rw [if_pos h2]; rfl
    · rw [if_neg h2]
      by_cases h3 : limit = false ∧ dy ≠ 0 ∧ yD ≠ 0
      · rw [if_pos h3]
        by_cases h4 : Int.fmod yD dy = 0 ∧ 0 < Int.fdiv yD dy
        · rw [if_pos h4, divEq_eq_some _ _ _ _ h3.2.2 h3.2.1]; rfl
        · rw [if_neg h4]; rfl
      · rw [if_neg h3]; rfl
  · rw [if_neg h1]
    by_cases h5 : limit = false ∧ dx ≠ 0
    · rw [if_pos h5]
      by_cases h6 : Int.fmod xD dx = 0 ∧ 0 < Int.fdiv xD dx
      · rw [if_pos h6]
        obtain ⟨q, hq, hxq⟩ := (fmod_fdiv_pos_iff xD dx h5.2).mp h6
        have hxD0 : xD ≠ 0 := by rw [hxq]; exact mul_ne_zero (by omega) h5.2
        by_cases h7 : yD = dy
        · rw [if_pos h7, divEq_eq_some _ _ _ _ hxD0 h5.2]; rfl
        · rw [if_neg h7]
          by_cases h8 : dy ≠ 0 ∧ yD ≠ 0
          · rw [if_pos h8]
            by_cases h9 : Int.fmod yD dy = 0 ∧ 0 < Int.fdiv yD dy
            · rw [if_pos h9, divEq_eq_some _ _ _ _ h8.2 h8.1]; rfl
            · rw [if_neg h9]; rfl
          · rw [if_neg h8]; rfl
      · rw [if_neg h6]; rfl
    · rw [if_neg h5]; rfl

/-- A vector that does not satisfy the scalar-multiple rule leaves
`valid_move` untouched. -/
theorem matchVector_eq_false (limit : Bool) (xD yD dx dy : Int)
    (h : ¬ scalarMultipleRule limit xD yD dx dy) :
    matchVector limit xD yD dx dy = some false := by
  have hs := matchVector_isSome limit xD yD dx dy
  rcases hv : matchVector limit xD yD dx dy with _ | b
  · rw [hv] at hs; simp at hs
  · cases b
    · rfl
    · exact absurd ((matchVector_eq_true_iff _ _ _ _ _).mp hv) h

/-- C1: for a piece with its move table and `limit` flag and a
displacement between two on-board squares, the vector-matching phase of
`isVaidMove` accepts the displacement exactly when some table vector
matches it exactly or, for a ranged piece, the displacement is a
positive-integer scalar multiple of that vector: the asymmetric
dx-first/dy-fallback scan order is semantically equivalent to the
uniform scalar-multiple test. -/
theorem vectorPhase_iff_scalarMultiple (p : Piece) (s t : Int)
    (hs0 : 0 ≤ s) (hs1 : s < 64) (ht0 : 0 ≤ t) (ht1 : t < 64) :
    (∃ m ∈ p.moves,
        matchVector p.limit (Int.fmod t 8 - Int.fmod s 8)
          (Int.fdiv t 8 - Int.fdiv s 8) m.1 m.2 = some true) ↔
      ∃ m ∈ p.moves,
        scalarMultipleRule p.limit (Int.fmod t 8 - Int.fmod s 8)
          (Int.fdiv t 8 - Int.fdiv s 8) m.1 m.2 :=
  exists_congr fun m =>
    and_congr_right fun _ => matchVector_eq_true_iff _ _ _ _ _

/-- Witness for C1: the white rook from square 0 to square 56. -/
theorem vectorPhase_iff_scalarMultiple_witness :
    (∃ m ∈ (mkBoardPiece PieceKind.rook 0 true).moves,
        matchVector (mkBoardPiece PieceKind.rook 0 true).limit
          (Int.fmod 56 8 - Int.fmod 0 8) (Int.fdiv 56 8 - Int.fdiv 0 8)
          m.1 m.2 = some true) ↔
      ∃ m ∈ (mkBoardPiece PieceKind.rook 0 true).moves,
        scalarMultipleRule (mkBoardPiece PieceKind.rook 0 true).limit
          (Int.fmod 56 8 - Int.fmod 0 8) (Int.fdiv 56 8 - Int.fdiv 0 8)
          m.1 m.2 :=
  vectorPhase_iff_scalarMultiple (mkBoardPiece PieceKind.rook 0 true) 0 56
    (by decide) (by decide) (by decide) (by decide)

/-- C2: for every piece kind (with its side-specific move set for
pawns), every vector of its table and every source square whose exact
one-vector target lies on the board, the move is accepted on a board
where the piece stands alone. -/
theorem isVaidMove_exact_vector :
    ∀ (k : PieceKind) (w : Bool), ∀ m ∈ pieceMoves k w, ∀ s : Fin 64,
      0 ≤ Int.fmod s 8 + m.1 → Int.fmod s 8 + m.1 < 8 →
      0 ≤ Int.fdiv s 8 + m.2 → Int.fdiv s 8 + m.2 < 8 →
      isVaidMove (singleBoard s (mkBoardPiece k s w))
        (mkBoardPiece k s w) s (s + m.1 + 8 * m.2) =
        some true := by decide

/-- Witness for C2: the white rook alone on square 0 stepping one rank
up to square 8. -/
theorem isVaidMove_exact_vector_witness :
    isVaidMove (singleBoard 0 (mkBoardPiece PieceKind.rook 0 true))
      (mkBoardPiece PieceKind.rook 0 true) 0 (0 + 0 + 8 * 1) = some true :=
  isVaidMove_exact_vector PieceKind.rook true (0, 1) (by decide)
    (0 : Fin 64) (by decide) (by decide) (by decide) (by decide)

/-- A scan whose `piece_NOT_between` flag is already false returns
`false` when the step is nonzero and the fuel covers the remaining
in-range positions. -/
theorem betweenLoop_false (pieces : Int → Option Piece) (step target : Int)
    (hstep : step ≠ 0) :
    ∀ (fuel : Nat) (cur : Int),
      (0 < step → 64 - cur ≤ (fuel : Int)) →
      (step < 0 → cur + 1 ≤ (fuel : Int)) →
      betweenLoop pieces step target fuel cur false = some false := by
  intro fuel
  induction fuel with
  | zero =>
      intro cur h1 h2
      have hstop : cur = target ∨ cur ≤ -1 ∨ 64 ≤ cur := by
        rcases lt_or_gt_of_ne hstep with h | h
        · have := h2 h; right; left; omega
        · have := h1 h; right; right; omega
      unfold betweenLoop
      rw [if_pos hstop]
  | succ f ih =>
      intro cur h1 h2
      unfold betweenLoop
      by_cases hstop : cur = target ∨ cur ≤ -1 ∨ 64 ≤ cur
      · rw [if_pos hstop]
      · rw [if_neg hstop]
        have hb : (false && (pieces cur).isNone) = false := by simp
        rw [hb]
        apply ih
        · intro hpos; have := h1 hpos; omega
        · intro hneg; have := h2 hneg; omega

/-- The scan terminates inside its fuel whenever the step is nonzero
and the fuel covers the remaining in-range positions. -/
theorem betweenLoop_isSome (pieces : Int → Option Piece) (step target : Int)
    (hstep : step ≠ 0) :
    ∀ (fuel : Nat) (cur : Int) (flag : Bool),
      (0 < step → 64 - cur ≤ (fuel : Int)) →
      (step < 0 → cur + 1 ≤ (fuel : Int)) →
      (betweenLoop pieces step target fuel cur flag).isSome = true := by
  intro fuel
  induction fuel with
  | zero =>
      intro cur flag h1 h2
      have hstop : cur = target ∨ cur ≤ -1 ∨ 64 ≤ cur := by
        rcases lt_or_gt_of_ne hstep with h | h
        · have := h2 h; right; left; omega
        · have := h1 h; right; right; omega
      unfold betweenLoop
      rw [if_pos hstop]; rfl
  | succ f ih =>
      intro cur flag h1 h2
      unfold betweenLoop
      by_cases hstop : cur = target ∨ cur ≤ -1 ∨ 64 ≤ cur
      · rw [if_pos hstop]; rfl
      · rw [if_neg hstop]
        apply ih
        · intro hpos; have := h1 hpos; omega
        · intro hneg; have := h2 hneg; omega

/-- If a blocker sits `j` steps out, every position between 1 and `j`
steps is on the board and none of them is the target, then the scan
started `i ≤ j` steps out with the matching fuel budget ends in
`false`. -/
theorem betweenLoop_blocker (pieces : Int → Option Piece)
    (step target s j : Int)
    (hstep : step ≠ 0) (hs0 : 0 ≤ s) (hs1 : s < 64)
    (hblock : (pieces (s + j * step)).isSome = true)
    (htarget : ∀ i : Int, 1 ≤ i → i ≤ j → s + i * step ≠ target)
    (hrange : ∀ i : Int, 1 ≤ i → i ≤ j →
      0 ≤ s + i * step ∧ s + i * step < 64) :
    ∀ (n : Nat), ∀ (i : Int) (flag : Bool), i = j - n → 1 ≤ i →
      betweenLoop pieces step target (65 - i).toNat (s + i * step) flag =
        some false := by
  intro n
  induction n with
  | zero =>
      intro i flag hi hi1
      have hij : i = j := by omega
      subst hij
      have hr := hrange i hi1 (by omega)
      have hj63 : i ≤ 63 := by
        rcases lt_or_gt_of_ne hstep with h | h
        · have hmul : i ≤ i * (-step) := le_mul_of_one_le_right (by omega) (by omega)
          have hm2 : i * (-step) = -(i * step) := by ring
          omega
        · have hmul : i ≤ i * step := le_mul_of_one_le_right (by omega) (by omega)
          omega
      have hf : (65 - i).toNat = (64 - i).toNat + 1 := by omega
      rw [hf]
      unfold betweenLoop
      have hnstop : ¬(s + i * step = target ∨ s + i * step ≤ -1 ∨
          64 ≤ s + i * step) := by
        push_neg
        exact ⟨htarget i hi1 (by omega), by omega, by omega⟩
      rw [if_neg hnstop]
      have hflag : (flag && (pieces (s + i * step)).isNone) = false := by
        rcases hq : pieces (s + i * step) with _ | q
        · rw [hq] at hblock; simp at hblock
        · simp
      rw [hflag]
      apply betweenLoop_false pieces step target hstep
      · intro hpos
        have hmul : i ≤ i * step := le_mul_of_one_le_right (by omega) (by omega)
        omega
      · intro hneg
        have hmul : i ≤ i * (-step) := le_mul_of_one_le_right (by omega) (by omega)
        have hm2 : i * (-step) = -(i * step) := by ring
        omega
  | succ n ih =>
      intro i flag hi hi1
      have hij : i < j := by omega
      have hr := hrange i hi1 (by omega)
      have hj63 : i ≤ 63 := by
        rcases lt_or_gt_of_ne hstep with h | h
        · have hmul : i ≤ i * (-step) := le_mul_of_one_le_right (by omega) (by omega)
          have hm2 : i * (-step) = -(i * step) := by ring
          omega
        · have hmul : i ≤ i * step := le_mul_of_one_le_right (by omega) (by omega)
          omega
      have hf : (65 - i).toNat = (65 - (i + 1)).toNat + 1 := by omega
      rw [hf]
      unfold betweenLoop
      have hnstop : ¬(s + i * step = target ∨ s + i * step ≤ -1 ∨
          64 ≤ s + i * step) := by
        push_neg
        exact ⟨htarget i hi1 (by omega), by omega, by omega⟩
      rw [if_neg hnstop]
      have hpos : s + i * step + step = s + (i + 1) * step := by ring
      rw [hpos]
      exact ih (i + 1) _ (by omega) (by omega)

/-- The obstruction scan reports a blocker: if the target lies `k`
nonzero steps from `s` along the vector and some square strictly
between (at `j` steps, `1 ≤ j < k`) is occupied, `isPieceBetween`
returns `false`. -/
theorem isPieceBetween_blocked (pieces : Int → Option Piece)
    (m : Int × Int) (s target k j : Int)
    (hstep : m.1 + m.2 * 8 ≠ 0) (hs0 : 0 ≤ s) (hs1 : s < 64)
    (htar : target = s + k * (m.1 + m.2 * 8))
    (hj1 : 1 ≤ j) (hjk : j < k)
    (hblock : (pieces (s + j * (m.1 + m.2 * 8))).isSome = true)
    (hrange : ∀ i : Int, 1 ≤ i → i ≤ j →
      0 ≤ s + i * (m.1 + m.2 * 8) ∧ s + i * (m.1 + m.2 * 8) < 64) :
    isPieceBetween pieces m s target = some false := by
  have htarget : ∀ i : Int, 1 ≤ i → i ≤ j →
      s + i * (m.1 + m.2 * 8) ≠ target := by
    intro i hi1 hi2 he
    rw [htar] at he
    have hz : (i - k) * (m.1 + m.2 * 8) = 0 := by linear_combination he
    rcases mul_eq_zero.mp hz with h | h
    · omega
    · exact hstep h
  have hmain := betweenLoop_blocker pieces (m.1 + m.2 * 8) target s j hstep
    hs0 hs1 hblock htarget hrange (j - 1).toNat 1 true (by omega) (by omega)
  unfold isPieceBetween
  have h1 : ((65 : Int) - 1).toNat = 64 := by decide
  have h2 : s + 1 * (m.1 + m.2 * 8) = s + (m.1 + m.2 * 8) := by ring
  rw [h1, h2] at hmain
  exact hmain

/-- A vector that leaves `valid_move` false is skipped. -/
theorem moveLoop_cons_skip (pieces : Int → Option Piece) (piece : Piece)
    (currentPos targetPos xD yD : Int) (m : Int × Int)
    (rest : List (Int × Int))
    (hb : matchVector piece.limit xD yD m.1 m.2 = some false) :
    moveLoop pieces piece currentPos targetPos xD yD (m :: rest) false =
      moveLoop pieces piece currentPos targetPos xD yD rest false := by
  simp [moveLoop, hb]

/-- Once `valid_move` holds and the occupant of the source square is
ranged, the loop overwrites `valid_move` with the obstruction scan for
the current vector and breaks. -/
theorem moveLoop_cons_hit (pieces : Int → Option Piece) (piece : Piece)
    (currentPos targetPos xD yD : Int) (m : Int × Int)
    (rest : List (Int × Int)) (occ : Piece) (vm : Bool)
    (hb : matchVector piece.limit xD yD m.1 m.2 = some true)
    (hocc : pieces currentPos = some occ) (hlim : occ.limit = false) :
    moveLoop pieces piece currentPos targetPos xD yD (m :: rest) vm =
      isPieceBetween pieces m currentPos targetPos := by
  simp [moveLoop, hb, hocc, hlim]

/-- With a non-ranged occupant the loop just accumulates matches. -/
theorem moveLoop_cons_keep (pieces : Int → Option Piece) (piece : Piece)
    (currentPos targetPos xD yD : Int) (m : Int × Int)
    (rest : List (Int × Int)) (occ : Piece) (vm b : Bool)
    (hb : matchVector piece.limit xD yD m.1 m.2 = some b)
    (hocc : pieces currentPos = some occ) (hlim : occ.limit = true) :
    moveLoop pieces piece currentPos targetPos xD yD (m :: rest) vm =
      moveLoop pieces piece currentPos targetPos xD yD rest (vm || b) := by
  by_cases hvm : (vm || b) = true
  · simp [moveLoop, hb, hocc, hlim, hvm]
  · simp [moveLoop, hb, hvm]

/-- If `m` is the only vector of the list matching the displacement and
the occupant of the source square is ranged, the loop result is the
obstruction scan along `m`. -/
theorem moveLoop_ranged_first_match (pieces : Int → Option Piece)
    (piece : Piece) (currentPos targetPos xD yD : Int) (occ : Piece)
    (hocc : pieces currentPos = some occ) (hlim : occ.limit = false) :
    ∀ (l : List (Int × Int)) (m : Int × Int), m ∈ l →
      matchVector piece.limit xD yD m.1 m.2 = some true →
      (∀ m' ∈ l, matchVector piece.limit xD yD m'.1 m'.2 = some true →
        m' = m) →
      moveLoop pieces piece currentPos targetPos xD yD l false =
        isPieceBetween pieces m currentPos targetPos := by
  intro l
  induction l with
  | nil => intro m hm _ _; simp at hm
  | cons a rest ih =>
      intro m hm hmt huniq
      by_cases ha : matchVector piece.limit xD yD a.1 a.2 = some true
      · have hea : a = m := huniq a (by simp) ha
        subst hea
        exact moveLoop_cons_hit pieces piece currentPos targetPos xD yD
          a rest occ false ha hocc hlim
      · have has := matchVector_isSome piece.limit xD yD a.1 a.2
        have haf : matchVector piece.limit xD yD a.1 a.2 = some false := by
          rcases hv : matchVector piece.limit xD yD a.1 a.2 with _ | b
          · rw [hv] at has; simp at has
          · cases b
            · rfl
            · exact absurd hv ha
        rw [moveLoop_cons_skip pieces piece currentPos targetPos xD yD
          a rest haf]
        have hm' : m ∈ rest := by
          rcases List.mem_cons.mp hm with h | h
          · exact absurd (h ▸ hmt) ha
          · exact h
        exact ih m hm' hmt
          (fun m' h1 h2 => huniq m' (List.mem_cons_of_mem _ h1) h2)

/-- Two vectors with components in `[-1, 1]`, neither zero, such that a
`k`-fold multiple of the first (with `k ≥ 2`) scalar-matches the
second, must be equal. -/
theorem unit_vectors_no_cross_match (a b c d k : Int)
    (ha1 : -1 ≤ a) (ha2 : a ≤ 1) (hb1 : -1 ≤ b) (hb2 : b ≤ 1)
    (hc1 : -1 ≤ c) (hc2 : c ≤ 1) (hd1 : -1 ≤ d) (hd2 : d ≤ 1)
    (hab : ¬(a = 0 ∧ b = 0)) (hcd : ¬(c = 0 ∧ d = 0))
    (hne : ¬(a = c ∧ b = d)) (hk : 2 ≤ k) :
    ¬ scalarMultipleRule false (k * a) (k * b) c d := by
  rintro (⟨h1, h2⟩ | ⟨-, q, hq, e1, e2⟩)
  · interval_cases a <;> interval_cases b <;> omega
  · interval_cases a <;> interval_cases b <;> interval_cases c <;>
      interval_cases d <;> omega

/-- Shape facts about the three ranged move tables. -/
theorem ranged_table_facts (l : List (Int × Int))
    (hl : l = rookMoves ∨ l = bishopMoves ∨ l = queenMoves) :
    ∀ m ∈ l, (-1 ≤ m.1 ∧ m.1 ≤ 1) ∧ (-1 ≤ m.2 ∧ m.2 ≤ 1) ∧
      ¬(m.1 = 0 ∧ m.2 = 0) := by
  rcases hl with rfl | rfl | rfl <;> decide

/-- Core of C3, with the arithmetic side conditions made explicit. -/
theorem isVaidMove_ranged_blocked_core (pieces : Int → Option Piece)
    (p : Piece) (s t k j : Int) (m : Int × Int)
    (htab : p.moves = rookMoves ∨ p.moves = bishopMoves ∨
      p.moves = queenMoves)
    (hlim : p.limit = false)
    (hocc : pieces s = some p)
    (hm : m ∈ p.moves)
    (hs0 : 0 ≤ s) (hs1 : s < 64)
    (hdx : Int.fmod t 8 - Int.fmod s 8 = k * m.1)
    (hdy : Int.fdiv t 8 - Int.fdiv s 8 = k * m.2)
    (hk : 2 ≤ k) (hj1 : 1 ≤ j) (hjk : j < k)
    (htar : t = s + k * (m.1 + m.2 * 8))
    (hrange : ∀ i : Int, 1 ≤ i → i ≤ j →
      0 ≤ s + i * (m.1 + m.2 * 8) ∧ s + i * (m.1 + m.2 * 8) < 64)
    (hstep : m.1 + m.2 * 8 ≠ 0)
    (hblock : (pieces (s + j * (m.1 + m.2 * 8))).isSome = true) :
    isVaidMove pieces p s t = some false := by
  have hmatch : matchVector p.limit (Int.fmod t 8 - Int.fmod s 8)
      (Int.fdiv t 8 - Int.fdiv s 8) m.1 m.2 = some true := by
    rw [matchVector_eq_true_iff, hdx, hdy, hlim]
    exact Or.inr ⟨rfl, k, by omega, rfl, rfl⟩
  have hfacts := ranged_table_facts p.moves htab
  have huniq : ∀ m' ∈ p.moves,
      matchVector p.limit (Int.fmod t 8 - Int.fmod s 8)
        (Int.fdiv t 8 - Int.fdiv s 8) m'.1 m'.2 = some true → m' = m := by
    intro m' hm' hmt
    by_contra hne
    have h1 := hfacts m hm
    have h2 := hfacts m' hm'
    have hrule := (matchVector_eq_true_iff _ _ _ _ _).mp hmt
    rw [hdx, hdy, hlim] at hrule
    exact unit_vectors_no_cross_match m.1 m.2 m'.1 m'.2 k
      h1.1.1 h1.1.2 h1.2.1.1 h1.2.1.2 h2.1.1 h2.1.2 h2.2.1.1 h2.2.1.2
      h1.2.2 h2.2.2
      (fun he => hne (Prod.ext he.1.symm he.2.symm)) hk hrule
  unfold isVaidMove
  rw [moveLoop_ranged_first_match pieces p s t
    (Int.fmod t 8 - Int.fmod s 8) (Int.fdiv t 8 - Int.fdiv s 8)
    p hocc hlim p.moves m hm hmatch huniq]
  rw [isPieceBetween_blocked pieces m s t k j hstep hs0 hs1 htar hj1 hjk
    hblock hrange]
  rcases pieces t with _ | q
  · rfl
  · by_cases hw : q.white = p.white <;> simp [hw]

/-- C3: a ranged piece's move to a target a positive multiple `k ≥ 2`
of one of its vectors away is rejected whenever any square strictly
between source and target along that vector is occupied; in particular
the rook move 0 → 56 is accepted on an otherwise empty board and
rejected once any piece stands on square 24. -/
theorem isVaidMove_obstruction :
    (∀ (pieces : Int → Option Piece) (p : Piece) (s t k j : Int)
        (m : Int × Int),
        (p.moves = rookMoves ∨ p.moves = bishopMoves ∨
          p.moves = queenMoves) →
        p.limit = false →
        pieces s = some p →
        m ∈ p.moves →
        0 ≤ s → s < 64 → 0 ≤ t → t < 64 →
        Int.fmod t 8 - Int.fmod s 8 = k * m.1 →
        Int.fdiv t 8 - Int.fdiv s 8 = k * m.2 →
        2 ≤ k → 1 ≤ j → j < k →
        (pieces (s + j * (m.1 + m.2 * 8))).isSome = true →
        isVaidMove pieces p s t = some false) ∧
      isVaidMove (singleBoard 0 (mkBoardPiece PieceKind.rook 0 true))
        (mkBoardPiece PieceKind.rook 0 true) 0 56 = some true ∧
      ∀ q : Piece,
        isVaidMove
          (fun i => if i = 0 then some (mkBoardPiece PieceKind.rook 0 true)
            else if i = 24 then some q else none)
          (mkBoardPiece PieceKind.rook 0 true) 0 56 = some false := by
  have hgen : ∀ (pieces : Int → Option Piece) (p : Piece) (s t k j : Int)
      (m : Int × Int),
      (p.moves = rookMoves ∨ p.moves = bishopMoves ∨
        p.moves = queenMoves) →
      p.limit = false →
      pieces s = some p →
      m ∈ p.moves →
      0 ≤ s → s < 64 → 0 ≤ t → t < 64 →
      Int.fmod t 8 - Int.fmod s 8 = k * m.1 →
      Int.fdiv t 8 - Int.fdiv s 8 = k * m.2 →
      2 ≤ k → 1 ≤ j → j < k →
      (pieces (s + j * (m.1 + m.2 * 8))).isSome = true →
      isVaidMove pieces p s t = some false := by
    intro pieces p s t k j m htab hlim hocc hm hs0 hs1 ht0 ht1 hdx hdy
      hk hj1 hjk hblock
    obtain ⟨⟨hm1a, hm1b⟩, ⟨hm2a, hm2b⟩, hmnz⟩ :=
      ranged_table_facts p.moves htab m hm
    have hstep : m.1 + m.2 * 8 ≠ 0 := by omega
    have hdx' : t % 8 - s % 8 = k * m.1 := by
      rw [← Int.fmod_eq_emod t (by norm_num), ← Int.fmod_eq_emod s (by norm_num)]
      exact hdx
    have hdy' : t / 8 - s / 8 = k * m.2 := by
      rw [← Int.fdiv_eq_ediv t (by norm_num), ← Int.fdiv_eq_ediv s (by norm_num)]
      exact hdy
    have hc1 : m.1 = -1 ∨ m.1 = 0 ∨ m.1 = 1 := by omega
    have hc2 : m.2 = -1 ∨ m.2 = 0 ∨ m.2 = 1 := by omega
    rcases hc1 with h1 | h1 | h1 <;> rcases hc2 with h2 | h2 | h2 <;>
      exact isVaidMove_ranged_blocked_core pieces p s t k j m htab hlim
        hocc hm hs0 hs1 hdx hdy hk hj1 hjk
        (by simp only [h1, h2] at hdx' hdy' ⊢; omega)
        (by simp only [h1, h2] at hdx' hdy' ⊢; intro i hi1 hi2; omega)
        hstep hblock
  refine ⟨hgen, by decide, fun q => hgen _ _ 0 56 7 3 (0, 1)
    (Or.inl rfl) rfl (by norm_num) (by decide) (by norm_num) (by norm_num)
    (by norm_num) (by norm_num) (by decide) (by decide) (by norm_num)
    (by norm_num) (by norm_num) (by norm_num)⟩

/-- Witness for C3: the blocked rook scenario with a black pawn on
square 24. -/
theorem isVaidMove_obstruction_witness :
    isVaidMove
      (fun i => if i = 0 then some (mkBoardPiece PieceKind.rook 0 true)
        else if i = 24 then some (mkBoardPiece PieceKind.pawn 24 false)
        else none)
      (mkBoardPiece PieceKind.rook 0 true) 0 56 = some false :=
  isVaidMove_obstruction.2.2 (mkBoardPiece PieceKind.pawn 24 false)

/-- C4: whenever the target square holds a piece of the same side,
`isVaidMove` returns `false` if it returns at all, regardless of any
pattern match or obstruction result. -/
theorem isVaidMove_same_color (pieces : Int → Option Piece) (p q : Piece)
    (s t : Int) (b : Bool)
    (hq : pieces t = some q) (hw : q.white = p.white)
    (hres : isVaidMove pieces p s t = some b) : b = false := by
  unfold isVaidMove at hres
  rcases hr : moveLoop pieces p s t (Int.fmod t 8 - Int.fmod s 8)
      (Int.fdiv t 8 - Int.fdiv s 8) p.moves false with _ | vm
  · rw [hr] at hres; simp at hres
  · rw [hr, hq] at hres
    simp [hw] at hres
    exact hres

/-- Witness for C4: white rook at 0 aimed at the white pawn on 56. -/
theorem isVaidMove_same_color_witness : (false : Bool) = false :=
  isVaidMove_same_color
    (fun i => if i = 0 then some (mkBoardPiece PieceKind.rook 0 true)
      else if i = 56 then some (mkBoardPiece PieceKind.pawn 56 true)
      else none)
    (mkBoardPiece PieceKind.rook 0 true)
    (mkBoardPiece PieceKind.pawn 56 true) 0 56 false
    (by norm_num) rfl (by decide)

/-- C10: a pawn's one-step diagonal vector is accepted onto any empty
on-board target; no rule restricts the diagonal vectors to captures. -/
theorem pawn_diagonal_no_capture_rule (pieces : Int → Option Piece)
    (w : Bool) (s t : Int)
    (hs0 : 0 ≤ s) (hs1 : s < 64) (ht0 : 0 ≤ t) (ht1 : t < 64)
    (hp : pieces s = some (mkBoardPiece PieceKind.pawn s w))
    (hempty : pieces t = none)
    (hd : (Int.fmod t 8 - Int.fmod s 8, Int.fdiv t 8 - Int.fdiv s 8) ∈
      pawnDiagonals w) :
    isVaidMove pieces (mkBoardPiece PieceKind.pawn s w) s t = some true := by
  cases w
  · simp only [pawnDiagonals, List.mem_cons, List.not_mem_nil, or_false,
      Prod.mk.injEq] at hd
    rcases hd with ⟨hx, hy⟩ | ⟨hx, hy⟩
    · unfold isVaidMove
      rw [show (mkBoardPiece PieceKind.pawn s false).moves =
        [(0, -1), (1, -1), (-1, -1)] from rfl]
      rw [hx, hy]
      rw [moveLoop_cons_keep pieces (mkBoardPiece PieceKind.pawn s false)
        s t 1 (-1) (0, -1) [(1, -1), (-1, -1)]
        (mkBoardPiece PieceKind.pawn s false) false false rfl hp rfl]
      rw [moveLoop_cons_keep pieces (mkBoardPiece PieceKind.pawn s false)
        s t 1 (-1) (1, -1) [(-1, -1)]
        (mkBoardPiece PieceKind.pawn s false) (false || false) true
        rfl hp rfl]
      rw [moveLoop_cons_keep pieces (mkBoardPiece PieceKind.pawn s false)
        s t 1 (-1) (-1, -1) []
        (mkBoardPiece PieceKind.pawn s false) (false || false || true) false
        rfl hp rfl]
      simp [moveLoop, hempty]
    · unfold isVaidMove
      rw [show (mkBoardPiece PieceKind.pawn s false).moves =
        [(0, -1), (1, -1), (-1, -1)] from rfl]
      rw [hx, hy]
      rw [moveLoop_cons_keep pieces (mkBoardPiece PieceKind.pawn s false)
        s t (-1) (-1) (0, -1) [(1, -1), (-1, -1)]
        (mkBoardPiece PieceKind.pawn s false) false false rfl hp rfl]
      rw [moveLoop_cons_keep pieces (mkBoardPiece PieceKind.pawn s false)
        s t (-1) (-1) (1, -1) [(-1, -1)]
        (mkBoardPiece PieceKind.pawn s false) (false || false) false
        rfl hp rfl]
      have hb3 : matchVector (mkBoardPiece PieceKind.pawn s false).limit
          (-1) (-1) (-1) (-1) = some true := rfl
      rw [moveLoop_cons_keep pieces (mkBoardPiece PieceKind.pawn s false)
        s t (-1) (-1) (-1, -1) []
        (mkBoardPiece PieceKind.pawn s false) (false || false || false) true
        hb3 hp rfl]
      simp [moveLoop, hempty]
  · simp only [pawnDiagonals, List.mem_cons, List.not_mem_nil, or_false,
      Prod.mk.injEq] at hd
    rcases hd with ⟨hx, hy⟩ | ⟨hx, hy⟩
    · unfold isVaidMove
      rw [show (mkBoardPiece PieceKind.pawn s true).moves =
        [(0, 1), (1, 1), (-1, 1)] from rfl]
      rw [hx, hy]
      rw [moveLoop_cons_keep pieces (mkBoardPiece PieceKind.pawn s true)
        s t 1 1 (0, 1) [(1, 1), (-1, 1)]
        (mkBoardPiece PieceKind.pawn s true) false false rfl hp rfl]
      rw [moveLoop_cons_keep pieces (mkBoardPiece PieceKind.pawn s true)
        s t 1 1 (1, 1) [(-1, 1)]
        (mkBoardPiece PieceKind.pawn s true) (false || false) true
        rfl hp rfl]
      have hb3 : matchVector (mkBoardPiece PieceKind.pawn s true).limit
          1 1 (-1) 1 = some false := rfl
      rw [moveLoop_cons_keep pieces (mkBoardPiece PieceKind.pawn s true)
        s t 1 1 (-1, 1) []
        (mkBoardPiece PieceKind.pawn s true) (false || false || true) false
        hb3 hp rfl]
      simp [moveLoop, hempty]
    · unfold isVaidMove
      rw [show (mkBoardPiece PieceKind.pawn s true).moves =
        [(0, 1), (1, 1), (-1, 1)] from rfl]
      rw [hx, hy]
      rw [moveLoop_cons_keep pieces (mkBoardPiece PieceKind.pawn s true)
        s t (-1) 1 (0, 1) [(1, 1), (-1, 1)]
        (mkBoardPiece PieceKind.pawn s true) false false rfl hp rfl]
      rw [moveLoop_cons_keep pieces (mkBoardPiece PieceKind.pawn s true)
        s t (-1) 1 (1, 1) [(-1, 1)]
        (mkBoardPiece PieceKind.pawn s true) (false || false) false
        rfl hp rfl]
      have hb3 : matchVector (mkBoardPiece PieceKind.pawn s true).limit
          (-1) 1 (-1) 1 = some true := rfl
      rw [moveLoop_cons_keep pieces (mkBoardPiece PieceKind.pawn s true)
        s t (-1) 1 (-1, 1) []
        (mkBoardPiece PieceKind.pawn s true) (false || false || false) true
        hb3 hp rfl]
      simp [moveLoop, hempty]

/-- Witness for C10: the white pawn alone on square 8 moves diagonally
to the empty square 17. -/
theorem pawn_diagonal_no_capture_rule_witness :
    isVaidMove (singleBoard 8 (mkBoardPiece PieceKind.pawn 8 true))
      (mkBoardPiece PieceKind.pawn 8 true) 8 17 = some true :=
  pawn_diagonal_no_capture_rule
    (singleBoard 8 (mkBoardPiece PieceKind.pawn 8 true)) true 8 17
    (by norm_num) (by norm_num) (by norm_num) (by norm_num)
    rfl rfl (by decide)

/-- The obstruction scan returns within its fuel for any vector with
nonzero linear step, from any on-board source square. -/
theorem isPieceBetween_isSome (pieces : Int → Option Piece)
    (m : Int × Int) (s t : Int)
    (hstep : m.1 + m.2 * 8 ≠ 0) (hs0 : 0 ≤ s) (hs1 : s < 64) :
    (isPieceBetween pieces m s t).isSome = true := by
  unfold isPieceBetween
  apply betweenLoop_isSome pieces (m.1 + m.2 * 8) t hstep 64
  · intro hpos; omega
  · intro hneg; omega

/-- The vector loop returns whenever the source square holds a piece
and every scanned vector has nonzero linear step. -/
theorem moveLoop_isSome (pieces : Int → Option Piece) (piece : Piece)
    (s t xD yD : Int) (occ : Piece)
    (hocc : pieces s = some occ) (hs0 : 0 ≤ s) (hs1 : s < 64) :
    ∀ (l : List (Int × Int)) (vm : Bool),
      (∀ m ∈ l, m.1 + m.2 * 8 ≠ 0) →
      (moveLoop pieces piece s t xD yD l vm).isSome = true := by
  intro l
  induction l with
  | nil => intro vm _; rfl
  | cons a rest ih =>
      intro vm hsteps
      have has := matchVector_isSome piece.limit xD yD a.1 a.2
      rcases hv : matchVector piece.limit xD yD a.1 a.2 with _ | b
      · rw [hv] at has; simp at has
      · simp only [moveLoop, hv, hocc]
        by_cases hvm : (vm || b) = true
        · rw [if_pos hvm]
          by_cases hl : occ.limit = false
          · rw [if_pos hl]
            exact isPieceBetween_isSome pieces a s t
              (hsteps a (by simp)) hs0 hs1
          · rw [if_neg hl]
            exact ih (vm || b) (fun m' hm' => hsteps m' (by simp [hm']))
        · rw [if_neg hvm]
          exact ih (vm || b) (fun m' hm' => hsteps m' (by simp [hm']))

/-- C9: under the structural preconditions (on-board squares, `piece`
occupying the source square, every move vector drawn from the class
tables) `isVaidMove` and `isPieceBetween` are total: every division has
a nonzero denominator on its path, every board access is guarded into
`[0, 64)`, and the obstruction scan terminates inside its 64-step fuel
because each table vector's linear step `dx + 8*dy` is nonzero. -/
theorem isVaidMove_total (pieces : Int → Option Piece) (piece : Piece)
    (s t : Int)
    (hs0 : 0 ≤ s) (hs1 : s < 64) (ht0 : 0 ≤ t) (ht1 : t < 64)
    (hocc : pieces s = some piece)
    (htab : ∀ m ∈ piece.moves, m ∈ allClassVectors) :
    (isVaidMove pieces piece s t).isSome = true ∧
      ∀ m ∈ piece.moves, (isPieceBetween pieces m s t).isSome = true := by
  have hsteps : ∀ m ∈ piece.moves, m.1 + m.2 * 8 ≠ 0 := by
    intro m hm
    have hall : ∀ m' ∈ allClassVectors, m'.1 + m'.2 * 8 ≠ 0 := by decide
    exact hall m (htab m hm)
  constructor
  · unfold isVaidMove
    rcases hr : moveLoop pieces piece s t
        (Int.fmod t 8 - Int.fmod s 8) (Int.fdiv t 8 - Int.fdiv s 8)
        piece.moves false with _ | vm
    · have hms := moveLoop_isSome pieces piece s t
        (Int.fmod t 8 - Int.fmod s 8) (Int.fdiv t 8 - Int.fdiv s 8)
        piece hocc hs0 hs1 piece.moves false hsteps
      rw [hr] at hms; simp at hms
    · rfl
  · intro m hm
    exact isPieceBetween_isSome pieces m s t (hsteps m hm) hs0 hs1

/-- Witness for C9: the rook alone on square 0 aimed at square 56. -/
theorem isVaidMove_total_witness :
    (isVaidMove (singleBoard 0 (mkBoardPiece PieceKind.rook 0 true))
        (mkBoardPiece PieceKind.rook 0 true) 0 56).isSome = true ∧
      (isPieceBetween (singleBoard 0 (mkBoardPiece PieceKind.rook 0 true))
        (0, 1) 0 56).isSome = true :=
  ⟨(isVaidMove_total (singleBoard 0 (mkBoardPiece PieceKind.rook 0 true))
      (mkBoardPiece PieceKind.rook 0 true) 0 56
      (by norm_num) (by norm_num) (by norm_num) (by norm_num)
      rfl (by decide)).1,
   (isVaidMove_total (singleBoard 0 (mkBoardPiece PieceKind.rook 0 true))
      (mkBoardPiece PieceKind.rook 0 true) 0 56
      (by norm_num) (by norm_num) (by norm_num) (by norm_num)
      rfl (by decide)).2 (0, 1) (by decide)⟩

/-- C5: swapping from an occupied square `fr` to a different square:
slot `fr` ends empty, slot `toSq` holds the moving piece with its
`square` attribute set to `toSq` (the previous occupant of `toSq`, if
any, is overwritten away), and no other slot changes. -/
theorem swapPieces_spec (pieces : Int → Option Piece) (fr toSq : Int)
    (p : Piece) (hne : fr ≠ toSq) (hocc : pieces fr = some p) :
    (swapPieces pieces fr toSq).1 fr = none ∧
      (swapPieces pieces fr toSq).1 toSq = some (setSquare p toSq) ∧
      ∀ i : Int, i ≠ fr → i ≠ toSq →
        (swapPieces pieces fr toSq).1 i = pieces i := by
  rcases hto : pieces toSq with _ | q
  · refine ⟨?_, ?_, fun i hi1 hi2 => ?_⟩
    · simp [swapPieces, updateToSquare, updSlot, hocc, hto, hne, Ne.symm hne]
    · simp [swapPieces, updateToSquare, updSlot, hocc, hto, hne, Ne.symm hne]
    · simp [swapPieces, updateToSquare, updSlot, hocc, hto, hne,
        Ne.symm hne, hi1, hi2]
  · refine ⟨?_, ?_, fun i hi1 hi2 => ?_⟩
    · simp [swapPieces, updateToSquare, updSlot, hocc, hto, hne, Ne.symm hne]
    · simp [swapPieces, updateToSquare, updSlot, hocc, hto, hne, Ne.symm hne]
    · simp [swapPieces, updateToSquare, updSlot, hocc, hto, hne,
        Ne.symm hne, hi1, hi2]

/-- Witness for C5: rook from 0 onto the black pawn on 56; slot 5 is
untouched. -/
theorem swapPieces_spec_witness :
    (swapPieces
        (fun i => if i = 0 then some (mkBoardPiece PieceKind.rook 0 true)
          else if i = 56 then some (mkBoardPiece PieceKind.pawn 56 false)
          else none) 0 56).1 0 = none ∧
      (swapPieces
        (fun i => if i = 0 then some (mkBoardPiece PieceKind.rook 0 true)
          else if i = 56 then some (mkBoardPiece PieceKind.pawn 56 false)
          else none) 0 56).1 56 =
        some (setSquare (mkBoardPiece PieceKind.rook 0 true) 56) ∧
      (swapPieces
        (fun i => if i = 0 then some (mkBoardPiece PieceKind.rook 0 true)
          else if i = 56 then some (mkBoardPiece PieceKind.pawn 56 false)
          else none) 0 56).1 5 =
        (fun i => if i = 0 then some (mkBoardPiece PieceKind.rook 0 true)
          else if i = 56 then some (mkBoardPiece PieceKind.pawn 56 false)
          else none) 5 :=
  ⟨(swapPieces_spec _ 0 56 (mkBoardPiece PieceKind.rook 0 true)
      (by norm_num) (by norm_num)).1,
   (swapPieces_spec _ 0 56 (mkBoardPiece PieceKind.rook 0 true)
      (by norm_num) (by norm_num)).2.1,
   (swapPieces_spec _ 0 56 (mkBoardPiece PieceKind.rook 0 true)
      (by norm_num) (by norm_num)).2.2 5 (by norm_num) (by norm_num)⟩

/-- C6: `swapPieces` reports game over on a call exactly when the two
squares differ and the piece previously occupying the target square is
a King; capturing a non-King or moving onto an empty square never
signals it. -/
theorem swapPieces_gameOver_iff (pieces : Int → Option Piece)
    (fr toSq : Int) :
    (swapPieces pieces fr toSq).2 = true ↔
      (fr ≠ toSq ∧ ∃ p, pieces toSq = some p ∧
        p.kind = PieceKind.king) := by
  by_cases hne : fr = toSq
  · subst hne
    rcases hp : pieces fr with _ | p <;>
      simp [swapPieces, updateToSquare, updSlot, hp]
  · rcases hp : pieces toSq with _ | p
    · simp [swapPieces, updateToSquare, updSlot, hne, Ne.symm hne, hp]
    · simp [swapPieces, updateToSquare, updSlot, hne, Ne.symm hne, hp]

/-- C7: with a drag active from an occupied square, a release with no
hovered square or with a rejected move returns the same state with only
`dragging` cleared (every board slot, hence every piece's position
attribute, unchanged); and whenever `releasePiece` returns at all,
`dragging` is `False`. -/
theorem releasePiece_reject_unchanged :
    (∀ (st : DemoState) (s : Int) (p : Piece),
        st.dragging = some s →
        st.pieces s = some p →
        (st.hiSq = none ∨
          ∃ t, st.hiSq = some t ∧
            isVaidMove st.pieces p s t = some false) →
        releasePiece st = some { st with dragging := none }) ∧
      ∀ (st st' : DemoState), releasePiece st = some st' →
        st'.dragging = none := by
  constructor
  · intro st s p hdrag hocc hrej
    unfold releasePiece
    simp only [hdrag, hocc]
    rcases hrej with hnone | ⟨t, hht, hval⟩
    · simp only [hnone]
    · simp only [hht, hval]
  · intro st st' hret
    unfold releasePiece at hret
    rcases hd : st.dragging with _ | s <;> simp only [hd] at hret
    · rw [← Option.some.inj hret]
    · rcases ho : st.pieces s with _ | p
      · simp only [ho] at hret
        exact Option.noConfusion hret
      · simp only [ho] at hret
        rcases hh : st.hiSq with _ | t
        · simp only [hh] at hret
          rw [← Option.some.inj hret]
        · simp only [hh] at hret
          rcases hv : isVaidMove st.pieces p s t with _ | b
          · simp only [hv] at hret
            exact Option.noConfusion hret
          · cases b
            · simp only [hv] at hret
              rw [← Option.some.inj hret]
            · simp only [hv] at hret
              rw [← Option.some.inj hret]

/-- Witness for C7: a drag of the rook from square 0 released with no
hovered square. -/
theorem releasePiece_reject_unchanged_witness :
    releasePiece (DemoState.mk
        (singleBoard 0 (mkBoardPiece PieceKind.rook 0 true))
        none (some 0)) =
      some (DemoState.mk
        (singleBoard 0 (mkBoardPiece PieceKind.rook 0 true))
        none none) :=
  releasePiece_reject_unchanged.1
    (DemoState.mk (singleBoard 0 (mkBoardPiece PieceKind.rook 0 true))
      none (some 0))
    0 (mkBoardPiece PieceKind.rook 0 true) rfl rfl (Or.inl rfl)

/-- C8 evaluation: the `is_first_move` flag is `False` already at
construction, and the release transition that applies a piece's first
successful move (white pawn 8 → 16) assigns `False` again, so the flag
never becomes true. -/
theorem is_first_move_never_set :
    (mkBoardPiece PieceKind.pawn 8 true).is_first_move = false ∧
      (releasePiece (DemoState.mk
          (singleBoard 8 (mkBoardPiece PieceKind.pawn 8 true))
          (some 16) (some 8))).bind (fun st => st.pieces 16) =
        some (setSquare
          { mkBoardPiece PieceKind.pawn 8 true with is_first_move := false }
          16) ∧
      (setSquare
        { mkBoardPiece PieceKind.pawn 8 true with is_first_move := false }
        16).is_first_move = false := by
  exact ⟨rfl, by decide, rfl⟩

end ChessDemo
